import Mathlib

/-!
Shallow embedding of release-generator (src/main.go), a tool that rewrites a
version pin inside a YAML manifest and opens a pull request for the change.
Strings are modelled as lists of characters, the file system as a map from
path to optional content, and the external GitHub calls as explicit inputs.
-/

set_option maxHeartbeats 1000000

/-- Word characters of the RE2 class used in the pattern: ASCII letters,
digits and the underscore. -/
def isWordChar (c : Char) : Bool := c.isAlphanum || c == '_'

/-- Models Go fmt.Sprintf for the subset used in main.go: format strings whose
only verbs are percent-s, applied to string arguments of matching arity. -/
def sprintf : List Char → List (List Char) → List Char
  | [], _ => []
  | '%' :: 's' :: rest, a :: args => a ++ sprintf rest args
  | '%' :: 's' :: rest, [] => "%!s(MISSING)".data ++ sprintf rest []
  | c :: rest, args => c :: sprintf rest args

/-- First index at which pat occurs in s (Go strings.Index). -/
def strIndex (pat : List Char) : List Char → Option Nat
  | [] => if pat.isPrefixOf [] then some 0 else none
  | c :: t => if pat.isPrefixOf (c :: t) then some 0 else (strIndex pat t).map (· + 1)

/-- Go strings.Contains. -/
def containsSubstr (s pat : List Char) : Bool := (strIndex pat s).isSome

/-- Go strings.Replace with count 1: replace the first occurrence of old. -/
def replaceFirst (s old new : List Char) : List Char :=
  match strIndex old s with
  | none => s
  | some i => s.take i ++ new ++ s.drop (i + old.length)

/-- The pattern pat occurs in s at position i. -/
def occursAt (s pat : List Char) (i : Nat) : Prop := pat.isPrefixOf (s.drop i) = true

instance (s pat : List Char) (i : Nat) : Decidable (occursAt s pat i) := by
  unfold occursAt; infer_instance

/-- Go error values surfaced by the embedded functions. -/
inductive GoErr where
  | ioError : String → GoErr
  | notFound : GoErr
deriving DecidableEq

/-- Outcome of a Go call: normal value, returned error value, or runtime crash
(models a Go panic, e.g. slicing a string beyond its length). -/
inductive GoOutcome (α : Type) where
  | ok : α → GoOutcome α
  | err : String → GoOutcome α
  | crash : String → GoOutcome α
deriving DecidableEq

/-- Embeds extractNewCommitHash (main.go lines 109-116).  The GitHub GetRef
call is the input: either an error, or a reference whose object SHA may be
absent (the go-github getters are nil-safe and yield the empty string then).
The Go code slices GetSHA()[:8], which crashes whenever the SHA holds fewer
than 8 bytes. -/
def extractNewCommitHash (lookup : Except String (Option (List Char))) : GoOutcome (List Char) :=
  match lookup with
  | .error e => .err ("error getting ref: " ++ e)
  | .ok shaOpt =>
    let sha := shaOpt.getD []
    if 8 ≤ sha.length then .ok (sha.take 8) else .crash "slice bounds out of range"

/-- Embeds the resolution step of main (lines 66-72): a non-empty -c flag value
is used verbatim, otherwise the GitHub lookup runs. -/
def resolveNewCommitHash (flagValue : List Char) (lookup : Except String (Option (List Char))) :
    GoOutcome (List Char) :=
  if flagValue = [] then extractNewCommitHash lookup else .ok flagValue

/-- Match of the regex master underscore w-times-8 anchored at the head of s,
returning the captured 8 word characters (line 126 of main.go; the branch name
is taken as a literal, its intended use). -/
def matchHere (master s : List Char) : Option (List Char) :=
  if (master ++ ['_']).isPrefixOf s then
    let hash := (s.drop (master.length + 1)).take 8
    if hash.length = 8 ∧ hash.all isWordChar then some hash else none
  else none

/-- Leftmost match of the regex in s (RE2 FindStringSubmatch), returning the
capture group. -/
def findCapture (master : List Char) : List Char → Option (List Char)
  | [] => matchHere master []
  | c :: t =>
    match matchHere master (c :: t) with
    | some h => some h
    | none => findCapture master t

/-- One trailing carriage return is stripped from a scanned line (bufio dropCR). -/
def dropCR (l : List Char) : List Char :=
  if l.getLast? = some '\r' then l.dropLast else l

/-- Lines produced by bufio.Scanner with ScanLines: split on newline, no empty
token after a final newline, one trailing carriage return stripped per line. -/
def splitLines (s : List Char) : List (List Char) :=
  let parts := s.splitOn '\n'
  let parts := if parts.getLast? = some [] then parts.dropLast else parts
  parts.map dropCR

/-- The scanner loop of extractOldCommitHash (lines 128-136): the first line
containing the tag on which the regex matches wins. -/
def scanLoop (master yamlTag : List Char) : List (List Char) → Except GoErr (List Char)
  | [] => .error .notFound
  | line :: rest =>
    if containsSubstr line yamlTag then
      match findCapture master line with
      | some h => .ok h
      | none => scanLoop master yamlTag rest
    else scanLoop master yamlTag rest

/-- File system: a map from path to optional file content. -/
def FileSys := String → Option (List Char)

/-- Embeds extractOldCommitHash (lines 118-139).  The function only opens and
reads the file, so the file system component of the result is the input one. -/
def extractOldCommitHash (fs : FileSys) (filePath : String) (master yamlTag : List Char) :
    Except GoErr (List Char) × FileSys :=
  (match fs filePath with
   | none => .error (.ioError "open file")
   | some content => scanLoop master yamlTag (splitLines content), fs)

/-- The quoted YAML scalar updateYamlFile builds via Sprintf (lines 165-166). -/
def mkTagLine (yamlTag master hash : List Char) : List Char :=
  sprintf "%s: \"%s_%s\"".data [yamlTag, master, hash]

/-- The pure content transformation of updateYamlFile (lines 164-167):
strings.Replace with count 1. -/
def updateYamlContent (content master yamlTag oldHash newHash : List Char) : List Char :=
  replaceFirst content (mkTagLine yamlTag master oldHash) (mkTagLine yamlTag master newHash)

/-- Embeds updateYamlFile (lines 158-174): read the file, replace the first
occurrence of the old tag line, write the result back in place. -/
def updateYamlFile (fs : FileSys) (filePath : String) (master yamlTag oldHash newHash : List Char) :
    Except GoErr Unit × FileSys :=
  match fs filePath with
  | none => (.error (.ioError "read file"), fs)
  | some content =>
    (.ok (),
     fun p => if p = filePath then some (updateYamlContent content master yamlTag oldHash newHash)
              else fs p)

/-- Branch name derived in main (line 79). -/
def branchName (repo env hash : List Char) : List Char :=
  sprintf "%s_%s_%s".data [repo, env, hash]

/-- Pull request and commit title derived in main (line 99). -/
def titleOf (repo env hash : List Char) : List Char :=
  sprintf "%s %s %s".data [repo, env.map Char.toUpper, hash]

/-- Pull request description derived in main (line 100). -/
def prDescription (owner repo oldHash newHash : List Char) : List Char :=
  sprintf "https://github.com/%s/%s/compare/%s...%s".data [owner, repo, oldHash, newHash]

/-- Argument record of the go-github PullRequests.Create call (lines 197-211). -/
structure PRCreateCall where
  owner : List Char
  repo : List Char
  title : List Char
  body : List Char
  head : List Char
  base : List Char
deriving DecidableEq

/-- Embeds createPullRequest: the target repository argument is the literal
string devops (line 205). -/
def createPullRequest (owner branch master title description : List Char) : PRCreateCall :=
  { owner := owner, repo := "devops".data, title := title, body := description,
    head := branch, base := master }

/-- The Create call main assembles from the flag values (lines 79, 99-101). -/
def mainPRCall (owner repo env newHash oldHash master : List Char) : PRCreateCall :=
  createPullRequest owner (branchName repo env newHash) master
    (titleOf repo env newHash) (prDescription owner repo oldHash newHash)

/-- The concrete patch target of the idempotence property: the substring
tag colon space quote master underscore aaaaaaaa quote. -/
def targetAA : List Char := mkTagLine "tag".data "master".data "aaaaaaaa".data

/-- The concrete patch replacement of the idempotence property: the substring
tag colon space quote master underscore bbbbbbbb quote. -/
def targetBB : List Char := mkTagLine "tag".data "master".data "bbbbbbbb".data

instance {ε α : Type} [DecidableEq ε] [DecidableEq α] : DecidableEq (Except ε α) := fun x y =>
  match x, y with
  | .ok a, .ok b =>
    if h : a = b then .isTrue (by rw [h]) else .isFalse (by intro hc; cases hc; exact h rfl)
  | .error a, .error b =>
    if h : a = b then .isTrue (by rw [h]) else .isFalse (by intro hc; cases hc; exact h rfl)
  | .ok _, .error _ => .isFalse (by intro hc; cases hc)
  | .error _, .ok _ => .isFalse (by intro hc; cases hc)

/-! ### Claim theorems -/

/-- C5 (code_bug evidence): when the GitHub reference lookup fails, resolution
returns the wrapped error; but when the lookup succeeds while returning no
object (so the nil-safe SHA getter yields the empty string), the code crashes
slicing the empty string to 8 bytes instead of returning an error, contrary to
the claim that resolution fails with an error and never any other outcome. -/
theorem extractNew_no_object_crashes :
    extractNewCommitHash (.ok none) = .crash "slice bounds out of range" ∧
    (∀ e, extractNewCommitHash (.error e) = .err ("error getting ref: " ++ e)) :=
  ⟨rfl, fun _ => rfl⟩

/-- C7: the derived branch name is exactly repo_env_newId, the derived title is
exactly repo ENV newId with the environment uppercased, the derived description
is exactly the GitHub compare URL between the old and the new identifier, and
the derivation is a pure function of its inputs, so two runs with the same
inputs produce identical names. -/
theorem naming_format_deterministic (repo env hash owner oldHash newHash : List Char) :
    branchName repo env hash = repo ++ '_' :: env ++ '_' :: hash ∧
    titleOf repo env hash = repo ++ ' ' :: env.map Char.toUpper ++ ' ' :: hash ∧
    prDescription owner repo oldHash newHash =
      "https://github.com/".data ++ owner ++ '/' :: repo ++ "/compare/".data ++
        oldHash ++ "...".data ++ newHash ∧
    branchName repo env hash = branchName repo env hash := by
  refine ⟨?_, ?_, ?_, rfl⟩
  · show repo ++ '_' :: (env ++ '_' :: (hash ++ [])) = _
    simp
  · show repo ++ ' ' :: (env.map Char.toUpper ++ ' ' :: (hash ++ [])) = _
    simp
  · show "https://github.com/".data ++ (owner ++ '/' :: (repo ++ ("/compare/".data ++
      (oldHash ++ ('.' :: '.' :: '.' :: (newHash ++ [])))))) = _
    simp

/-- C8: a non-empty explicit identifier from the -c flag is passed through
verbatim as the resolved new identifier, with no format check; the GitHub
lookup result is irrelevant to the outcome, so no lookup is consulted. -/
theorem explicit_hash_passthrough (v : List Char)
    (lookup lookup2 : Except String (Option (List Char))) (h : v ≠ []) :
    resolveNewCommitHash v lookup = .ok v ∧
    resolveNewCommitHash v lookup = resolveNewCommitHash v lookup2 := by
  unfold resolveNewCommitHash
  rw [if_neg h, if_neg h]
  exact ⟨rfl, rfl⟩

/-- C8 witness: the concrete explicit identifier abcd1234 is returned verbatim. -/
theorem explicit_hash_passthrough_witness :
    resolveNewCommitHash "abcd1234".data (.ok none) = .ok "abcd1234".data :=
  (explicit_hash_passthrough "abcd1234".data (.ok none) (.error "x") (by decide)).1

/-- C9: the pull request is always created against the fixed repository name
devops under the given owner, whatever repository the -r flag supplies; the
repository flag influences only the title, the description and the head
branch, while owner, target repository and base branch do not vary with it. -/
theorem pullRequest_fixed_devops_repo
    (owner repo repo2 env newHash oldHash master : List Char) :
    (mainPRCall owner repo env newHash oldHash master).repo = "devops".data ∧
    (mainPRCall owner repo env newHash oldHash master).owner = owner ∧
    (mainPRCall owner repo env newHash oldHash master).base = master ∧
    (mainPRCall owner repo env newHash oldHash master).repo =
      (mainPRCall owner repo2 env newHash oldHash master).repo ∧
    (mainPRCall owner repo env newHash oldHash master).owner =
      (mainPRCall owner repo2 env newHash oldHash master).owner ∧
    (mainPRCall owner repo env newHash oldHash master).base =
      (mainPRCall owner repo2 env newHash oldHash master).base ∧
    (mainPRCall owner repo env newHash oldHash master).head = branchName repo env newHash ∧
    (mainPRCall owner repo env newHash oldHash master).title = titleOf repo env newHash ∧
    (mainPRCall owner repo env newHash oldHash master).body =
      prDescription owner repo oldHash newHash :=
  ⟨rfl, rfl, rfl, rfl, rfl, rfl, rfl, rfl, rfl⟩

/-! ### Occurrence and first-index machinery -/

theorem strIndex_nil (pat : List Char) :
    strIndex pat [] = if pat.isPrefixOf [] then some 0 else none := rfl

theorem strIndex_cons (pat : List Char) (c : Char) (t : List Char) :
    strIndex pat (c :: t) =
      if pat.isPrefixOf (c :: t) then some 0 else (strIndex pat t).map (· + 1) := rfl

theorem occursAt_iff {s pat : List Char} {i : Nat} : occursAt s pat i ↔ pat <+: s.drop i := by
  unfold occursAt; exact List.isPrefixOf_iff_prefix

theorem occursAt_zero {s pat : List Char} : occursAt s pat 0 ↔ pat.isPrefixOf s = true := by
  unfold occursAt; rw [List.drop_zero]

theorem occursAt_cons_succ {c : Char} {t pat : List Char} {i : Nat} :
    occursAt (c :: t) pat (i + 1) ↔ occursAt t pat i := by
  unfold occursAt; rw [List.drop_succ_cons]

theorem occursAt_le_length {s pat : List Char} {i : Nat} (hne : pat ≠ [])
    (h : occursAt s pat i) : i + pat.length ≤ s.length := by
  rw [occursAt_iff] at h
  have h1 := h.length_le
  rw [List.length_drop] at h1
  have h2 : 0 < pat.length := List.length_pos.mpr hne
  omega

theorem strIndex_eq_none_iff {pat s : List Char} :
    strIndex pat s = none ↔ ∀ i, ¬ occursAt s pat i := by
  induction s with
  | nil =>
    rw [strIndex_nil]
    by_cases h : pat.isPrefixOf []
    · rw [if_pos h]
      constructor
      · intro hc; exact Option.noConfusion hc
      · intro hall; exact absurd (occursAt_zero.mpr h) (by simpa using hall 0)
    · rw [if_neg h]
      refine ⟨fun _ i hocc => ?_, fun _ => rfl⟩
      unfold occursAt at hocc
      rw [List.drop_nil] at hocc
      exact h hocc
  | cons c t ih =>
    rw [strIndex_cons]
    by_cases h : pat.isPrefixOf (c :: t)
    · rw [if_pos h]
      constructor
      · intro hc; exact Option.noConfusion hc
      · intro hall; exact absurd (occursAt_zero.mpr h) (hall 0)
    · rw [if_neg h]
      constructor
      · intro hmap i hocc
        have ht : strIndex pat t = none := by
          cases hx : strIndex pat t with
          | none => rfl
          | some k => rw [hx] at hmap; exact Option.noConfusion hmap
        cases i with
        | zero => exact h (occursAt_zero.mp hocc)
        | succ j => exact (ih.mp ht) j (occursAt_cons_succ.mp hocc)
      · intro hall
        have ht : strIndex pat t = none :=
          ih.mpr (fun i hi => hall (i + 1) (occursAt_cons_succ.mpr hi))
        rw [ht]; rfl

theorem strIndex_eq_some_iff {pat : List Char} : ∀ {s : List Char} {i : Nat},
    strIndex pat s = some i ↔ occursAt s pat i ∧ ∀ j, j < i → ¬ occursAt s pat j := by
  intro s
  induction s with
  | nil =>
    intro i
    rw [strIndex_nil]
    by_cases h : pat.isPrefixOf []
    · rw [if_pos h]
      constructor
      · intro hc
        have h0 : i = 0 := (Option.some_inj.mp hc).symm
        subst h0
        exact ⟨occursAt_zero.mpr h, fun j hj => absurd hj (Nat.not_lt_zero j)⟩
      · rintro ⟨hocc, hfirst⟩
        cases i with
        | zero => rfl
        | succ m => exact absurd (occursAt_zero.mpr h) (hfirst 0 (Nat.succ_pos m))
    · rw [if_neg h]
      constructor
      · intro hc; exact Option.noConfusion hc
      · rintro ⟨hocc, -⟩
        unfold occursAt at hocc
        rw [List.drop_nil] at hocc
        exact absurd hocc h
  | cons c t ih =>
    intro i
    rw [strIndex_cons]
    by_cases h : pat.isPrefixOf (c :: t)
    · rw [if_pos h]
      constructor
      · intro hc
        have h0 : i = 0 := (Option.some_inj.mp hc).symm
        subst h0
        exact ⟨occursAt_zero.mpr h, fun j hj => absurd hj (Nat.not_lt_zero j)⟩
      · rintro ⟨hocc, hfirst⟩
        cases i with
        | zero => rfl
        | succ m => exact absurd (occursAt_zero.mpr h) (hfirst 0 (Nat.succ_pos m))
    · rw [if_neg h]
      constructor
      · intro hmap
        rcases Option.map_eq_some'.mp hmap with ⟨k, hk, hki⟩
        rcases ih.mp hk with ⟨hocc, hfirst⟩
        subst hki
        refine ⟨occursAt_cons_succ.mpr hocc, ?_⟩
        intro j hj hjocc
        cases j with
        | zero => exact h (occursAt_zero.mp hjocc)
        | succ m => exact hfirst m (by omega) (occursAt_cons_succ.mp hjocc)
      · rintro ⟨hocc, hfirst⟩
        cases i with
        | zero => exact absurd (occursAt_zero.mp hocc) h
        | succ m =>
          have hm : strIndex pat t = some m := by
            refine ih.mpr ⟨occursAt_cons_succ.mp hocc, ?_⟩
            intro j hj hjocc
            exact hfirst (j + 1) (by omega) (occursAt_cons_succ.mpr hjocc)
          rw [hm]; rfl

theorem replaceFirst_no_occ {s old new : List Char} (h : ∀ i, ¬ occursAt s old i) :
    replaceFirst s old new = s := by
  unfold replaceFirst
  rw [strIndex_eq_none_iff.mpr h]

theorem replaceFirst_first {s old new : List Char} {i : Nat}
    (h1 : occursAt s old i) (h2 : ∀ j, j < i → ¬ occursAt s old j) :
    replaceFirst s old new = s.take i ++ new ++ s.drop (i + old.length) := by
  unfold replaceFirst
  rw [strIndex_eq_some_iff.mpr ⟨h1, h2⟩]

/-! ### Evaluation helpers for the file-level functions -/

theorem updateYamlFile_eval {fs : FileSys} {filePath : String}
    {master yamlTag oldHash newHash content : List Char} (hfs : fs filePath = some content) :
    updateYamlFile fs filePath master yamlTag oldHash newHash =
      (.ok (),
       fun p => if p = filePath then some (updateYamlContent content master yamlTag oldHash newHash)
                else fs p) := by
  unfold updateYamlFile
  rw [hfs]

theorem extractOldCommitHash_eval {fs : FileSys} {filePath : String}
    {master yamlTag content : List Char} (hfs : fs filePath = some content) :
    extractOldCommitHash fs filePath master yamlTag =
      (scanLoop master yamlTag (splitLines content), fs) := by
  unfold extractOldCommitHash
  rw [hfs]

/-! ### Prefix decomposition lemmas -/

theorem pref_of_append_left {l x y : List Char} (h : l <+: x ++ y) (hl : l.length ≤ x.length) :
    l <+: x := by
  have h1 : l = (x ++ y).take l.length := ( List.prefix_iff_eq_take).mp h
  rw [List.take_append_eq_append_take, Nat.sub_eq_zero_of_le hl, List.take_zero,
    List.append_nil] at h1
  rw [h1]
  exact List.take_prefix _ _

theorem pref_append_split {l x y : List Char} (h : l <+: x ++ y) (hl : x.length ≤ l.length) :
    x <+: l ∧ l.drop x.length <+: y := by
  have h1 : l = (x ++ y).take l.length := ( List.prefix_iff_eq_take).mp h
  rw [List.take_append_eq_append_take, List.take_of_length_le hl] at h1
  constructor
  · rw [h1]; exact List.prefix_append _ _
  · rw [h1, List.drop_left]
    exact List.take_prefix _ _

/-- C2: updateYamlFile succeeds when the file exists and writes back, at the
manifest path only, the content with exactly the first occurrence of the
target substring tagName colon space quote branch underscore oldId quote
replaced by the same substring with the new identifier; when the target is
absent the written content equals the original byte-for-byte, and when the
first occurrence sits at position i everything before and after the replaced
substring is preserved byte-for-byte. -/
theorem updateYamlFile_replace_first_spec
    (fs : FileSys) (filePath : String) (master yamlTag oldHash newHash content : List Char)
    (hfs : fs filePath = some content) :
    mkTagLine yamlTag master oldHash =
      yamlTag ++ ':' :: ' ' :: '"' :: (master ++ '_' :: (oldHash ++ ['"'])) ∧
    mkTagLine yamlTag master newHash =
      yamlTag ++ ':' :: ' ' :: '"' :: (master ++ '_' :: (newHash ++ ['"'])) ∧
    (updateYamlFile fs filePath master yamlTag oldHash newHash).1 = .ok () ∧
    (updateYamlFile fs filePath master yamlTag oldHash newHash).2 filePath =
      some (replaceFirst content (mkTagLine yamlTag master oldHash)
        (mkTagLine yamlTag master newHash)) ∧
    (∀ p, p ≠ filePath → (updateYamlFile fs filePath master yamlTag oldHash newHash).2 p = fs p) ∧
    ((∀ i, ¬ occursAt content (mkTagLine yamlTag master oldHash) i) →
      replaceFirst content (mkTagLine yamlTag master oldHash)
        (mkTagLine yamlTag master newHash) = content) ∧
    (∀ i, occursAt content (mkTagLine yamlTag master oldHash) i →
      (∀ j, j < i → ¬ occursAt content (mkTagLine yamlTag master oldHash) j) →
      replaceFirst content (mkTagLine yamlTag master oldHash)
          (mkTagLine yamlTag master newHash) =
        content.take i ++ mkTagLine yamlTag master newHash ++
          content.drop (i + (mkTagLine yamlTag master oldHash).length)) := by
  rw [updateYamlFile_eval hfs]
  refine ⟨rfl, rfl, rfl, ?_, ?_, ?_, ?_⟩
  · show (if filePath = filePath then
        some (updateYamlContent content master yamlTag oldHash newHash) else fs filePath) = _
    rw [if_pos rfl]; rfl
  · intro p hp
    show (if p = filePath then
        some (updateYamlContent content master yamlTag oldHash newHash) else fs p) = fs p
    rw [if_neg hp]
  · exact replaceFirst_no_occ
  · exact fun i h1 h2 => replaceFirst_first h1 h2

/-- C2 witness: on a concrete three-line manifest the target line is rewritten
in place and the surrounding lines survive byte-for-byte. -/
theorem updateYamlFile_replace_first_spec_witness :
    (updateYamlFile
        (fun p => if p = "m.yaml" then some "x: 1\ntag: \"master_aaaaaaaa\"\ny: 2".data else none)
        "m.yaml" "master".data "tag".data "aaaaaaaa".data "bbbbbbbb".data).2 "m.yaml" =
      some "x: 1\ntag: \"master_bbbbbbbb\"\ny: 2".data := by
  have h := updateYamlFile_replace_first_spec
    (fun p => if p = "m.yaml" then some "x: 1\ntag: \"master_aaaaaaaa\"\ny: 2".data else none)
    "m.yaml" "master".data "tag".data "aaaaaaaa".data "bbbbbbbb".data
    "x: 1\ntag: \"master_aaaaaaaa\"\ny: 2".data (by decide)
  rcases h with ⟨-, -, -, h4, -, -, h7⟩
  rw [h4, h7 5 (by decide) (by decide)]
  decide

/-! ### Scanner loop lemmas -/

theorem scanLoop_cons (master yamlTag line : List Char) (rest : List (List Char)) :
    scanLoop master yamlTag (line :: rest) =
      if containsSubstr line yamlTag then
        match findCapture master line with
        | some h => .ok h
        | none => scanLoop master yamlTag rest
      else scanLoop master yamlTag rest := rfl

theorem scanLoop_first {master yamlTag : List Char} :
    ∀ (pre : List (List Char)) (line : List Char) (post : List (List Char)) (h : List Char),
    (∀ l ∈ pre, containsSubstr l yamlTag = true → findCapture master l = none) →
    containsSubstr line yamlTag = true → findCapture master line = some h →
    scanLoop master yamlTag (pre ++ line :: post) = .ok h := by
  intro pre
  induction pre with
  | nil =>
    intro line post h _ hc hf
    show scanLoop master yamlTag (line :: post) = .ok h
    rw [scanLoop_cons, if_pos hc, hf]
  | cons p ps ih =>
    intro line post h hpre hc hf
    show scanLoop master yamlTag (p :: (ps ++ line :: post)) = .ok h
    rw [scanLoop_cons]
    by_cases hcp : containsSubstr p yamlTag
    · rw [if_pos hcp, hpre p (List.mem_cons_self p ps) hcp]
      exact ih line post h (fun l hl => hpre l (List.mem_cons_of_mem p hl)) hc hf
    · rw [if_neg hcp]
      exact ih line post h (fun l hl => hpre l (List.mem_cons_of_mem p hl)) hc hf

theorem scanLoop_none {master yamlTag : List Char} :
    ∀ lines : List (List Char),
    (∀ l ∈ lines, containsSubstr l yamlTag = true → findCapture master l = none) →
    scanLoop master yamlTag lines = .error .notFound := by
  intro lines
  induction lines with
  | nil => intro _; rfl
  | cons p ps ih =>
    intro hall
    rw [scanLoop_cons]
    by_cases hcp : containsSubstr p yamlTag
    · rw [if_pos hcp, hall p (List.mem_cons_self p ps) hcp]
      exact ih (fun l hl => hall l (List.mem_cons_of_mem p hl))
    · rw [if_neg hcp]
      exact ih (fun l hl => hall l (List.mem_cons_of_mem p hl))

theorem scanLoop_ok_inv {master yamlTag : List Char} :
    ∀ {lines : List (List Char)} {h : List Char},
    scanLoop master yamlTag lines = .ok h →
    ∃ line ∈ lines, containsSubstr line yamlTag = true ∧ findCapture master line = some h := by
  intro lines
  induction lines with
  | nil => intro h hc; exact absurd hc (fun hx => Except.noConfusion hx)
  | cons p ps ih =>
    intro h hc
    rw [scanLoop_cons] at hc
    by_cases hcp : containsSubstr p yamlTag
    · rw [if_pos hcp] at hc
      cases hf : findCapture master p with
      | some k =>
        rw [hf] at hc
        have hk : k = h := by
          have : Except.ok (ε := GoErr) k = Except.ok h := hc
          injection this
        subst hk
        exact ⟨p, List.mem_cons_self p ps, hcp, hf⟩
      | none =>
        rw [hf] at hc
        rcases ih hc with ⟨l, hl, hh⟩
        exact ⟨l, List.mem_cons_of_mem p hl, hh⟩
    · rw [if_neg hcp] at hc
      rcases ih hc with ⟨l, hl, hh⟩
      exact ⟨l, List.mem_cons_of_mem p hl, hh⟩

theorem findCapture_cons (master : List Char) (c : Char) (t : List Char) :
    findCapture master (c :: t) =
      match matchHere master (c :: t) with
      | some h => some h
      | none => findCapture master t := rfl

theorem findCapture_of_first {master : List Char} :
    ∀ {l : List Char} {k : Nat} {h : List Char},
    (∀ j, j < k → matchHere master (l.drop j) = none) →
    matchHere master (l.drop k) = some h →
    findCapture master l = some h := by
  intro l
  induction l with
  | nil =>
    intro k h _ hk
    rw [List.drop_nil] at hk
    exact hk
  | cons c t ih =>
    intro k h hfirst hk
    rw [findCapture_cons]
    cases k with
    | zero =>
      rw [List.drop_zero] at hk
      rw [hk]
    | succ m =>
      have h0 : matchHere master (c :: t) = none := by
        have := hfirst 0 (Nat.succ_pos m)
        rwa [List.drop_zero] at this
      rw [h0]
      refine ih (fun j hj => ?_) (by rwa [List.drop_succ_cons] at hk)
      have := hfirst (j + 1) (by omega)
      rwa [List.drop_succ_cons] at this

theorem matchHere_at_pattern {master w rest : List Char}
    (hlen : 8 ≤ w.length) (hword : (w.take 8).all isWordChar = true) :
    matchHere master (master ++ '_' :: (w ++ rest)) = some (w.take 8) := by
  have hp : (master ++ ['_']).isPrefixOf (master ++ '_' :: (w ++ rest)) = true := by
    rw [ List.isPrefixOf_iff_prefix]
    have hs : master ++ '_' :: (w ++ rest) = (master ++ ['_']) ++ (w ++ rest) := by simp
    rw [hs]
    exact List.prefix_append _ _
  have hdrop : (master ++ '_' :: (w ++ rest)).drop (master.length + 1) = w ++ rest := by
    rw [List.drop_append_eq_append_drop, List.drop_eq_nil_of_le (by omega)]
    have h1 : master.length + 1 - master.length = 1 := by omega
    rw [h1]
    rfl
  have htake : (w ++ rest).take 8 = w.take 8 := by
    rw [List.take_append_eq_append_take, Nat.sub_eq_zero_of_le hlen, List.take_zero,
      List.append_nil]
  have hlen8 : (w.take 8).length = 8 := by
    rw [List.length_take]
    omega
  unfold matchHere
  rw [if_pos hp, hdrop, htake, if_pos ⟨hlen8, hword⟩]

/-- C4: scanning manifest lines in order, the first line that contains the tag
name as a substring and on which the pattern branch underscore eight word
characters matches determines the returned 8-character capture; earlier lines
that contain the tag name but do not match the pattern are skipped and
scanning continues. -/
theorem extractOld_first_match_wins
    (fs : FileSys) (filePath : String) (master yamlTag content h : List Char)
    (pre : List (List Char)) (line : List Char) (post : List (List Char))
    (hfs : fs filePath = some content)
    (hsplit : splitLines content = pre ++ line :: post)
    (hpre : ∀ l ∈ pre, containsSubstr l yamlTag = true → findCapture master l = none)
    (hline : containsSubstr line yamlTag = true)
    (hcap : findCapture master line = some h) :
    (extractOldCommitHash fs filePath master yamlTag).1 = .ok h := by
  rw [extractOldCommitHash_eval hfs]
  show scanLoop master yamlTag (splitLines content) = .ok h
  rw [hsplit]
  exact scanLoop_first pre line post h hpre hline hcap

/-- C4 witness: the first line contains the tag without the pattern and is
skipped; the second line supplies the capture. -/
theorem extractOld_first_match_wins_witness :
    (extractOldCommitHash
        (fun p => if p = "m.yaml" then some "image: none\nimage: \"master_11111111\"".data
                  else none)
        "m.yaml" "master".data "image".data).1 = .ok "11111111".data :=
  extractOld_first_match_wins
    (fun p => if p = "m.yaml" then some "image: none\nimage: \"master_11111111\"".data else none)
    "m.yaml" "master".data "image".data "image: none\nimage: \"master_11111111\"".data
    "11111111".data ["image: none".data] "image: \"master_11111111\"".data []
    (by decide) (by decide) (by decide) (by decide) (by decide)

/-- C6: when no manifest line yields a match for the tag, extraction fails
with the not-found error and the file system is returned unchanged, since
extraction only ever opens and reads the manifest. -/
theorem extractOld_notFound_no_write
    (fs : FileSys) (filePath : String) (master yamlTag content : List Char)
    (hfs : fs filePath = some content)
    (hnone : ∀ l ∈ splitLines content,
      containsSubstr l yamlTag = true → findCapture master l = none) :
    (extractOldCommitHash fs filePath master yamlTag).1 = .error .notFound ∧
    (extractOldCommitHash fs filePath master yamlTag).2 = fs := by
  rw [extractOldCommitHash_eval hfs]
  exact ⟨scanLoop_none _ hnone, rfl⟩

/-- C6 witness: a manifest without the tag makes extraction fail with the
not-found error and leaves the file system intact. -/
theorem extractOld_notFound_no_write_witness :
    (extractOldCommitHash
        (fun p => if p = "m.yaml" then some "foo: 1\nbar: 2".data else none)
        "m.yaml" "master".data "image".data).1 = .error .notFound ∧
    (extractOldCommitHash
        (fun p => if p = "m.yaml" then some "foo: 1\nbar: 2".data else none)
        "m.yaml" "master".data "image".data).2 =
      (fun p => if p = "m.yaml" then some "foo: 1\nbar: 2".data else none) :=
  extractOld_notFound_no_write
    (fun p => if p = "m.yaml" then some "foo: 1\nbar: 2".data else none)
    "m.yaml" "master".data "image".data "foo: 1\nbar: 2".data (by decide) (by decide)

/-- C1 (amended): any identifier returned by old-identifier extraction for a
tag tagA is the capture of a manifest line that contains tagA as a substring;
hence extraction never returns the identifier found on a line belonging to a
different tag tagB, except when tagA occurs as a substring of the tagB line
(for instance when tagA is a prefix of tagB), which the containment test of
the code does not exclude. -/
theorem extractOld_provenance
    (fs : FileSys) (filePath : String) (master yamlTag h content : List Char)
    (hfs : fs filePath = some content)
    (hok : (extractOldCommitHash fs filePath master yamlTag).1 = .ok h) :
    ∃ line ∈ splitLines content,
      containsSubstr line yamlTag = true ∧ findCapture master line = some h := by
  rw [extractOldCommitHash_eval hfs] at hok
  exact scanLoop_ok_inv hok

/-- C1 witness: on a one-line manifest the returned identifier is captured
from that tag-bearing line. -/
theorem extractOld_provenance_witness :
    ∃ line ∈ splitLines "image: \"master_11111111\"".data,
      containsSubstr line "image".data = true ∧
      findCapture "master".data line = some "11111111".data :=
  extractOld_provenance
    (fun p => if p = "m.yaml" then some "image: \"master_11111111\"".data else none)
    "m.yaml" "master".data "image".data "11111111".data "image: \"master_11111111\"".data
    (by decide) (by decide)

/-- C1 counterexample: the tags image and image2 differ and share the branch
name master, yet extraction for the tag image returns 22222222, the identifier
found on the line belonging to image2 (the first line), not 11111111, the
identifier on the line of image itself, because the image2 line contains the
string image as a substring. -/
theorem extractOld_scoping_cex :
    (extractOldCommitHash
        (fun p => if p = "m.yaml"
          then some "image2: \"master_22222222\"\nimage: \"master_11111111\"".data else none)
        "m.yaml" "master".data "image".data).1 = .ok "22222222".data ∧
    splitLines "image2: \"master_22222222\"\nimage: \"master_11111111\"".data =
      ["image2: \"master_22222222\"".data, "image: \"master_11111111\"".data] ∧
    findCapture "master".data "image: \"master_11111111\"".data = some "11111111".data ∧
    "22222222".data ≠ "11111111".data := by
  refine ⟨by decide, by decide, by decide, by decide⟩

/-- C10: a manifest line that contains the branch name followed by an
underscore and more than 8 word characters still yields a successful
extraction, and the result is exactly the first 8 word characters after the
underscore rather than a rejection of the over-long token. -/
theorem extractOld_overlong_token
    (fs : FileSys) (filePath : String) (master yamlTag pre w rest content : List Char)
    (hfs : fs filePath = some content)
    (hsplit : splitLines content = [pre ++ (master ++ '_' :: (w ++ rest))])
    (htag : containsSubstr (pre ++ (master ++ '_' :: (w ++ rest))) yamlTag = true)
    (hlen : 9 ≤ w.length)
    (hword : (w.take 9).all isWordChar = true)
    (hpre : ∀ j, j < pre.length →
      matchHere master ((pre ++ (master ++ '_' :: (w ++ rest))).drop j) = none) :
    (extractOldCommitHash fs filePath master yamlTag).1 = .ok (w.take 8) := by
  rw [extractOldCommitHash_eval hfs]
  show scanLoop master yamlTag (splitLines content) = .ok (w.take 8)
  rw [hsplit]
  refine scanLoop_first [] _ [] _ (by intro l hl; exact absurd hl (List.not_mem_nil l))
    htag ?_
  refine findCapture_of_first (k := pre.length) hpre ?_
  rw [List.drop_left]
  have h8 : 8 ≤ w.length := by omega
  have hmin : min 8 9 = 8 := by norm_num
  have hw8 : (w.take 8).all isWordChar = true := by
    rw [List.all_eq_true] at hword ⊢
    intro a ha
    apply hword
    refine List.mem_of_mem_take (n := 8) ?_
    rwa [List.take_take, hmin]
  exact matchHere_at_pattern h8 hw8

/-- C10 witness: the token 123456789abc after master underscore has 12 word
characters; extraction succeeds and returns its first 8 characters. -/
theorem extractOld_overlong_token_witness :
    (extractOldCommitHash
        (fun p => if p = "m.yaml" then some "tag: \"master_123456789abc\"".data else none)
        "m.yaml" "master".data "tag".data).1 = .ok "12345678".data := by
  have h := extractOld_overlong_token
    (fun p => if p = "m.yaml" then some "tag: \"master_123456789abc\"".data else none)
    "m.yaml" "master".data "tag".data "tag: \"".data "123456789abc".data "\"".data
    "tag: \"master_123456789abc\"".data
    (by decide) (by decide) (by decide) (by decide) (by decide) (by decide)
  rw [h]
  decide

/-! ### Idempotence of the concrete patch -/

theorem targetAA_no_suffix_starts_targetBB :
    ∀ s, s < 22 → (targetAA.drop s).isPrefixOf targetBB = false := by decide

theorem targetBB_no_suffix_starts_targetAA :
    ∀ m, m < 22 → (targetBB.drop m).isPrefixOf targetAA = false := by decide

theorem updateYamlFile_write {fs : FileSys} {filePath : String}
    {master yamlTag oldHash newHash content : List Char} (hfs : fs filePath = some content) :
    (updateYamlFile fs filePath master yamlTag oldHash newHash).2 filePath =
      some (updateYamlContent content master yamlTag oldHash newHash) := by
  rw [updateYamlFile_eval hfs]
  show (if filePath = filePath then some (updateYamlContent content master yamlTag oldHash newHash)
      else fs filePath) = _
  rw [if_pos rfl]

theorem no_occ_in_patched (content : List Char) (i : Nat)
    (h1 : occursAt content targetAA i)
    (h2 : ∀ j, j ≤ content.length → occursAt content targetAA j → j = i) :
    ∀ j, ¬ occursAt (content.take i ++ targetBB ++ content.drop (i + 22)) targetAA j := by
  have hTlen : targetAA.length = 22 := by decide
  have hRlen : targetBB.length = 22 := by decide
  have hTne : targetAA ≠ [] := by decide
  have hilen : i + 22 ≤ content.length := by
    have := occursAt_le_length hTne h1
    omega
  have hAlen : (content.take i).length = i := by
    rw [List.length_take]
    omega
  intro j hj
  rw [occursAt_iff] at hj
  have hdrop : (content.take i ++ targetBB ++ content.drop (i + 22)).drop j =
      (content.take i).drop j ++ targetBB.drop (j - i) ++
        (content.drop (i + 22)).drop (j - (i + 22)) := by
    rw [List.drop_append_eq_append_drop, List.drop_append_eq_append_drop,
      List.length_append, hAlen, hRlen]
  rw [hdrop] at hj
  rcases Nat.lt_or_ge j i with hji | hji
  · have hAdrop : ((content.take i).drop j).length = i - j := by
      rw [List.length_drop, hAlen]
    have hsub : j - i = 0 := by omega
    rw [hsub, List.drop_zero, List.append_assoc] at hj
    rcases Nat.lt_or_ge (j + 22) (i + 1) with hcase | hcase
    · -- the full pattern would sit inside the unchanged front part
      have hT : targetAA <+: (content.take i).drop j :=
        pref_of_append_left hj (by rw [hTlen, hAdrop]; omega)
      have heq : (content.take i).drop j = (content.drop j).take (i - j) :=
        List.drop_take i j content
      rw [heq] at hT
      have hocc : occursAt content targetAA j :=
        occursAt_iff.mpr (hT.trans (List.take_prefix _ _))
      have := h2 j (by omega) hocc
      omega
    · -- the pattern would straddle the front part and the replacement
      have hs : ((content.take i).drop j).length ≤ targetAA.length := by
        rw [hAdrop, hTlen]; omega
      have hsplit2 := pref_append_split hj hs
      have h3 := hsplit2.2
      rw [hAdrop] at h3
      have hT2 : targetAA.drop (i - j) <+: targetBB :=
        pref_of_append_left h3 (by rw [List.length_drop, hTlen, hRlen]; omega)
      have hb : (targetAA.drop (i - j)).isPrefixOf targetBB = true :=
        ( List.isPrefixOf_iff_prefix).mpr hT2
      rw [targetAA_no_suffix_starts_targetBB (i - j) (by omega)] at hb
      exact Bool.noConfusion hb
  · have hAdropnil : (content.take i).drop j = [] :=
      List.drop_eq_nil_of_le (by rw [hAlen]; omega)
    rcases Nat.lt_or_ge j (i + 22) with hcase | hcase
    · -- the pattern would straddle the replacement and the unchanged tail
      have hsub : j - (i + 22) = 0 := by omega
      rw [hAdropnil, List.nil_append, hsub, List.drop_zero] at hj
      have hsplit2 := pref_append_split hj
        (by rw [List.length_drop, hRlen, hTlen]; omega)
      have hb : (targetBB.drop (j - i)).isPrefixOf targetAA = true :=
        ( List.isPrefixOf_iff_prefix).mpr hsplit2.1
      rw [targetBB_no_suffix_starts_targetAA (j - i) (by omega)] at hb
      exact Bool.noConfusion hb
    · -- the pattern would sit inside the unchanged tail
      have hsub2 : targetBB.drop (j - i) = [] :=
        List.drop_eq_nil_of_le (by rw [hRlen]; omega)
      rw [hAdropnil, List.nil_append, hsub2, List.nil_append, List.drop_drop] at hj
      have harith : i + 22 + (j - (i + 22)) = j := by omega
      rw [harith] at hj
      have hocc : occursAt content targetAA j := occursAt_iff.mpr hj
      have hle : j ≤ content.length := by
        have := occursAt_le_length hTne hocc
        omega
      have := h2 j hle hocc
      omega

/-- C3 (amended, restricted to manifests in which the target substring occurs
exactly once): applying the patch for the transition from aaaaaaaa to bbbbbbbb
to a file whose content contains the substring tag colon space quote master
underscore aaaaaaaa quote at exactly one position yields a file containing the
substring with bbbbbbbb at that position, and applying the same patch a second
time to the result writes the content back unchanged (a no-op).  The original
claim quantified over every manifest content; it fails when the target occurs
more than once, as the counterexample shows. -/
theorem updateYamlFile_idempotent_once
    (fs : FileSys) (filePath : String) (content : List Char) (i : Nat)
    (hfs : fs filePath = some content)
    (h1 : occursAt content targetAA i)
    (h2 : ∀ j, j ≤ content.length → occursAt content targetAA j → j = i) :
    ∃ once,
      (updateYamlFile fs filePath "master".data "tag".data "aaaaaaaa".data
          "bbbbbbbb".data).2 filePath = some once ∧
      occursAt once targetBB i ∧
      (updateYamlFile
          (updateYamlFile fs filePath "master".data "tag".data "aaaaaaaa".data
            "bbbbbbbb".data).2
          filePath "master".data "tag".data "aaaaaaaa".data "bbbbbbbb".data).2 filePath =
        some once := by
  have hTlen : targetAA.length = 22 := by decide
  have hTne : targetAA ≠ [] := by decide
  have hilen : i + 22 ≤ content.length := by
    have := occursAt_le_length hTne h1
    omega
  have hfirst : ∀ j, j < i → ¬ occursAt content targetAA j := by
    intro j hji hocc
    have hle : j ≤ content.length := by
      have := occursAt_le_length hTne hocc
      omega
    have := h2 j hle hocc
    omega
  have honce : replaceFirst content targetAA targetBB =
      content.take i ++ targetBB ++ content.drop (i + 22) := by
    have h := @replaceFirst_first content targetAA targetBB i h1 hfirst
    rwa [hTlen] at h
  have hupd : updateYamlContent content "master".data "tag".data "aaaaaaaa".data
      "bbbbbbbb".data = replaceFirst content targetAA targetBB := rfl
  have hfs1 : (updateYamlFile fs filePath "master".data "tag".data "aaaaaaaa".data
      "bbbbbbbb".data).2 filePath = some (replaceFirst content targetAA targetBB) :=
    (updateYamlFile_write hfs).trans (by rw [hupd])
  refine ⟨replaceFirst content targetAA targetBB, hfs1, ?_, ?_⟩
  · rw [occursAt_iff, honce]
    have hAlen : (content.take i).length = i := by
      rw [List.length_take]; omega
    rw [List.append_assoc, List.drop_append_eq_append_drop]
    have d1 : (content.take i).drop i = [] := List.drop_eq_nil_of_le (by rw [hAlen])
    have d2 : i - (content.take i).length = 0 := by rw [hAlen]; omega
    rw [d1, d2, List.drop_zero, List.nil_append]
    exact List.prefix_append _ _
  · have hnone : ∀ j, ¬ occursAt (replaceFirst content targetAA targetBB) targetAA j := by
      rw [honce]
      exact no_occ_in_patched content i h1 h2
    have hnoop : replaceFirst (replaceFirst content targetAA targetBB) targetAA targetBB =
        replaceFirst content targetAA targetBB := replaceFirst_no_occ hnone
    rw [updateYamlFile_write hfs1]
    show some (replaceFirst (replaceFirst content targetAA targetBB) targetAA targetBB) = _
    rw [hnoop]

/-- C3 counterexample: on a manifest containing the target substring twice,
the first patch application rewrites only the first occurrence, so applying
the same patch a second time rewrites the second occurrence and changes the
content again, refuting the claim for arbitrary manifest contents. -/
theorem updateYamlFile_idempotent_cex :
    containsSubstr "tag: \"master_aaaaaaaa\"\ntag: \"master_aaaaaaaa\"".data targetAA = true ∧
    updateYamlContent
        (updateYamlContent "tag: \"master_aaaaaaaa\"\ntag: \"master_aaaaaaaa\"".data
          "master".data "tag".data "aaaaaaaa".data "bbbbbbbb".data)
        "master".data "tag".data "aaaaaaaa".data "bbbbbbbb".data ≠
      updateYamlContent "tag: \"master_aaaaaaaa\"\ntag: \"master_aaaaaaaa\"".data
        "master".data "tag".data "aaaaaaaa".data "bbbbbbbb".data := by
  refine ⟨by decide, by decide⟩

/-- C3 witness: on a manifest containing the target substring exactly once, at
position 5, the patch rewrites it and a second application is a no-op. -/
theorem updateYamlFile_idempotent_once_witness :
    ∃ once,
      (updateYamlFile (fun p => if p = "m.yaml"
          then some "x: 1\ntag: \"master_aaaaaaaa\"\ny: 2".data else none)
        "m.yaml" "master".data "tag".data "aaaaaaaa".data "bbbbbbbb".data).2 "m.yaml" =
        some once ∧
      occursAt once targetBB 5 ∧
      (updateYamlFile
          (updateYamlFile (fun p => if p = "m.yaml"
              then some "x: 1\ntag: \"master_aaaaaaaa\"\ny: 2".data else none)
            "m.yaml" "master".data "tag".data "aaaaaaaa".data "bbbbbbbb".data).2
          "m.yaml" "master".data "tag".data "aaaaaaaa".data "bbbbbbbb".data).2 "m.yaml" =
        some once :=
  updateYamlFile_idempotent_once
    (fun p => if p = "m.yaml" then some "x: 1\ntag: \"master_aaaaaaaa\"\ny: 2".data else none)
    "m.yaml" "x: 1\ntag: \"master_aaaaaaaa\"\ny: 2".data 5
    (by decide) (by decide) (by decide)
